import Mathlib

namespace UniversalRetrieval

/-!
Verification of the universal retrieval engine
(`src/retrieval/universal_retrieval.py`).

Timestamps are modeled as integer seconds (the source handles
second-granularity ISO strings, parsed into `pd.Timestamp` and formatted back
with `strftime("%Y-%m-%dT%H:%M:%SZ")`); a chunk is a pair of timestamps.
HTTP calls are modeled by abstracting the endpoint as a function from a time
range to an optional series, and exceptions of fallible operations are modeled
as `Option`/`Except` results.
-/

/-- A pandas `Series` indexed by time: a list of (timestamp, value) pairs in
index order. -/

abbrev Series (V : Type) := List (Nat × V)

/-! ## Time Chunker: `_chunk_time_ranges` -/

/-- The `while t < end` loop of `_chunk_time_ranges`: repeatedly emit
`(t, min (t + delta) e)` and advance `t` to the chunk end.  The loop is given
explicit fuel to make the recursion structural; `e - t` units of fuel always
suffice because every iteration advances `t` by at least one second
(`delta` is positive at every call site). -/

def chunkLoop : Nat → Nat → Nat → Nat → List (Nat × Nat)
  | 0, _, _, _ => []
  | f + 1, delta, t, e =>
    if t < e then (t, min (t + delta) e) :: chunkLoop f delta (min (t + delta) e) e
    else []

/-- The per-resolution chunk span of `_chunk_time_ranges`, in days:
7 days for "1s", 14 days for "5s"/"15s"/"1m", and `none` for every other
interval token (coarse resolutions use a single query). -/

def chunkDays (interval : String) : Option Nat :=
  if interval = "1s" then some 7
  else if interval = "5s" ∨ interval = "15s" then some 14
  else if interval = "1m" then some 14
  else none

/-- Model of `_chunk_time_ranges(start_str, end_str, interval)`:
if `start ≥ end` return the single original pair; for coarse resolutions
return the single original pair; otherwise split with `chunkLoop` using the
resolution-dependent span (`days * 86400` seconds), falling back to the single
original pair if the loop produced no chunks. -/

def chunk_time_ranges (s e : Nat) (interval : String) : List (Nat × Nat) :=
  if s ≥ e then [(s, e)]
  else
    match chunkDays interval with
    | none => [(s, e)]
    | some days =>
      let chunks := chunkLoop (e - s) (days * 86400) s e
      if chunks.isEmpty then [(s, e)] else chunks

/-- `chainB s l e` holds when the nonempty chunk list `l` is a contiguous,
ordered decomposition of `[s, e)`: the first chunk starts at `s`, each chunk
is nondegenerate (`start < end`), consecutive chunks share their boundary, and
the last chunk ends at `e`. -/

def chainB : Nat → List (Nat × Nat) → Nat → Bool
  | _, [], _ => false
  | s, [c], e => decide (s = c.1) && decide (c.1 < c.2) && decide (c.2 = e)
  | s, c :: c2 :: rest, e => decide (s = c.1) && decide (c.1 < c.2) && chainB c.2 (c2 :: rest) e

/-! ## Chunked Series Fetcher: `_query_chunked` -/

/-- Insert an entry into a time-sorted series, before the first entry with a
timestamp that is not smaller (the auxiliary step of a stable insertion
sort). -/

def insertByTime {V : Type} (a : Nat × V) : List (Nat × V) → List (Nat × V)
  | [] => [a]
  | b :: l => if a.1 ≤ b.1 then a :: b :: l else b :: insertByTime a l

/-- pandas `sort_index()`: a stable sort of the series by timestamp. -/

def sortByTime {V : Type} : List (Nat × V) → List (Nat × V)
  | [] => []
  | a :: l => insertByTime a (sortByTime l)

/-- pandas `combined[~combined.index.duplicated(keep="last")]`: keep an entry
exactly when no later entry carries the same timestamp. -/

def dedupKeepLast {V : Type} : List (Nat × V) → List (Nat × V)
  | [] => []
  | a :: l => if l.any (fun b => b.1 == a.1) then dedupKeepLast l else a :: dedupKeepLast l

/-- Model of `_query_chunked`, with the single-range query `_query` abstracted
as the endpoint function `q`: chunk the range; for a single chunk delegate to
`q` on the original range; otherwise run `q` once per chunk, drop the chunks
that returned nothing, and if any series remain concatenate them in chunk
order, sort stably by timestamp and deduplicate exact timestamp collisions
keeping the last occurrence. -/

def queryChunkedWith {V : Type} (q : Nat → Nat → Option (Series V)) (s e : Nat)
    (interval : String) : Option (Series V) :=
  let chunks := chunk_time_ranges s e interval
  if chunks.length ≤ 1 then q s e
  else
    let series := chunks.filterMap (fun c => q c.1 c.2)
    if series.isEmpty then none
    else some (dedupKeepLast (sortByTime series.flatten))

/-! ## The idealized consistent endpoint (for the refinement claim C2) -/

/-- The data points of a ground-truth bucket function `pts` in the inclusive
range `[s, e]` (the wire query filters `time >= start AND time <= end`, both
bounds inclusive). -/

def pointsIn {V : Type} (pts : Nat → Option V) (s e : Nat) : Series V :=
  (List.range' s (e + 1 - s)).filterMap (fun t => (pts t).map (fun v => (t, v)))

/-- The idealized consistent endpoint: a single-range `_query` whose response
over any range consists of exactly the data points of `pts` in that range, or
nothing when the range holds no points.  An endpoint model in which a
single-range query returns the union of the data points returned by the
per-chunk queries is exactly an endpoint of this shape. -/

def queryModel {V : Type} (pts : Nat → Option V) (s e : Nat) : Option (Series V) :=
  if (pointsIn pts s e).isEmpty then none else some (pointsIn pts s e)

/-! ## Schema Auto-Detector: `_auto_detect` -/

/-- The generic placeholder field names of the output-column naming rule in
`_auto_detect`: `("value_f", "value_b", "value_i")`. -/

def placeholderFields : List String := ["value_f", "value_b", "value_i"]

/-- The naming rule of `_auto_detect`:
`col_name = field if field not in ("value_f", "value_b", "value_i") else unit`. -/

def colNameFor (unit field : String) : String :=
  if placeholderFields.contains field then unit else field

/-- The work-list construction of `_auto_detect`: one work item
`(col_name, unit, field)` per (discovered unit, populated field) pair, in
discovery order.  The unit list and the per-unit populated-field list stand
for the results of the discovery queries. -/

def autoDetectWork (units : List String) (populated : String → List String) :
    List (String × String × String) :=
  units.flatMap (fun u => (populated u).map (fun f => (colNameFor u f, u, f)))

/-- Core of the bulk probe of `_get_fields_with_data_for_unit`: from the
parsed response table keep the columns, in column order, that are neither
`time` nor `unit`, are declared fields, and have at least one non-null cell;
the cell index is the column name's first position (`cols.index(c)`), and a
row shorter than that index counts as null. -/

def fieldsWithData {V : Type} (cols : List String) (vals : List (List (Option V)))
    (allFields : List String) : List String :=
  cols.filter (fun c =>
    !(c == "time" || c == "unit") && allFields.contains c &&
      vals.any (fun row => (row.getD (cols.findIdx (fun c' => c' == c)) none).isSome))

/-! ## Retrieval Orchestrator: `run_retrieval` -/

/-- The fallback field tuple of `run_retrieval`:
`FALLBACK_FIELDS = ("value_i", "value_b", "value_f", "value")`. -/

def FALLBACK_FIELDS : List String := ["value_i", "value_b", "value_f", "value"]

/-- The `for alt in FALLBACK_FIELDS` loop of `run_retrieval`: skip the
primary field, return the first alternate whose chunked query yields data,
together with that data. -/

def tryFallbacks {V : Type} (qU : String → Option (Series V)) (field : String) :
    List String → Option (Series V × String)
  | [] => none
  | alt :: rest =>
    if alt = field then tryFallbacks qU field rest
    else
      match qU alt with
      | some d => some (d, alt)
      | none => tryFallbacks qU field rest

/-- One work item's fetch in `run_retrieval`: the primary field first, then
the fallback loop; the result carries the field that finally produced the
data. -/

def fetchWithFallback {V : Type} (qU : String → Option (Series V)) (field : String) :
    Option (Series V × String) :=
  match qU field with
  | some d => some (d, field)
  | none => tryFallbacks qU field FALLBACK_FIELDS

/-- Python dict assignment `d[k] = v`: replace in place, or append at the
tail when the key is new. -/
def dictInsert {α : Type} (k : String) (v : α) : List (String × α) → List (String × α)
  | [] => [(k, v)]
  | kv :: rest => if kv.1 = k then (k, v) :: rest else kv :: dictInsert k v rest

/-- Python dict lookup `d.get(k)`. -/

def lookupCol {α : Type} (d : List (String × α)) (k : String) : Option α :=
  (d.find? (fun kv => kv.1 == k)).map (fun kv => kv.2)

/-- The loop state of `run_retrieval`: `all_data`, `successful`, `failed`,
`sensor_mapping` and `failed_mapping`. -/

structure RunState (V : Type) where
  allData : List (String × Series V)
  successful : List String
  failed : List String
  sensorMapping : List (String × (String × String))
  failedMapping : List (String × (String × String))

/-- The initial loop state of `run_retrieval` (all accumulators empty). -/

def initState {V : Type} : RunState V := ⟨[], [], [], [], []⟩

/-- One iteration of the work loop of `run_retrieval` for the work item
`(col_name, unit, field)`, with `_query_chunked` abstracted as `q`. -/

def stepItem {V : Type} (q : String → String → Option (Series V)) (st : RunState V)
    (item : String × String × String) : RunState V :=
  match fetchWithFallback (q item.2.1) item.2.2 with
  | some (d, f) =>
    { st with
      allData := dictInsert item.1 d st.allData
      successful := st.successful ++ [item.1]
      sensorMapping := dictInsert item.1 (item.2.1, f) st.sensorMapping }
  | none =>
    { st with
      failed := st.failed ++ [item.1]
      failedMapping := dictInsert item.1 (item.2.1, item.2.2) st.failedMapping }

/-- The timestamps occurring in any retrieved column. -/

def allTimestamps {V : Type} (d : List (String × Series V)) : List Nat :=
  (d.map (fun kv => kv.2.map Prod.fst)).flatten

/-- `len(df)` for `df = pd.DataFrame(all_data).sort_index()`: the outer join
on timestamps has one row per distinct timestamp of the retrieved columns. -/

def totalPoints {V : Type} (d : List (String × Series V)) : Nat :=
  (allTimestamps d).dedup.length

/-- The run summary `{successful, failed, total_points}`. -/

structure Summary where
  successful : Nat
  failed : Nat
  totalPoints : Nat
deriving DecidableEq

/-- The outcome of `run_retrieval`: the optional result (output path and
assembled table) and the summary. -/

structure RunOutcome (V : Type) where
  result : Option (String × List (String × Series V))
  summary : Summary

/-- `_write_metadata`: its whole body runs under `try: ... except: pass`, so
whatever the file-system effect `body` does — including failing — the call
returns normally. -/

def writeMetadataGuarded {E : Type} (_body : Except E Unit) : Except E Unit :=
  Except.ok Unit.unit

/-- `run_retrieval` after auto-detection: the work list, the chunked fetch
per (unit, field), the primary CSV write (`df.to_csv`) and the metadata
sidecar body are parameters; file-system effects are `Except` values, and an
uncaught exception propagates as `Except.error`.  An empty work list and a
run in which no item produced data return early, before any file is
written. -/

def runRetrieval {V E : Type} (work : List (String × String × String))
    (q : String → String → Option (Series V))
    (csvWrite : Except E Unit) (metaBody : Except E Unit) (path : String) :
    Except E (RunOutcome V) :=
  if work.isEmpty then Except.ok ⟨none, ⟨0, 0, 0⟩⟩
  else
    let st := work.foldl (stepItem q) initState
    if st.allData.isEmpty then Except.ok ⟨none, ⟨0, st.failed.length, 0⟩⟩
    else
      csvWrite.bind (fun _ =>
        (writeMetadataGuarded metaBody).bind (fun _ =>
          Except.ok ⟨some (path, st.allData),
            ⟨st.successful.length, st.failed.length, totalPoints st.allData⟩⟩))

/-- The `Field Mapping (column -> unit tag, InfluxDB field)` section of
`_write_metadata`: one line per successful column, resolved through
`sensor_mapping`. -/

def metadataFieldMapping (ok : List String)
    (mapping : List (String × (String × String))) :
    List (String × (String × String)) :=
  ok.map (fun col => (col, (lookupCol mapping col).getD ("?", "?")))

/-- Specification helper for the amended C3: the series of the last work item
with output column `col` that produced data, scanning the work list in
order. -/

def lastSuccessData {V : Type} (q : String → String → Option (Series V))
    (work : List (String × String × String)) (col : String) : Option (Series V) :=
  work.foldl (fun acc it =>
    match fetchWithFallback (q it.2.1) it.2.2 with
    | some (d, _) => if it.1 = col then some d else acc
    | none => acc) none

/-- The first alternate of the fallback scan in `run_retrieval` that differs
from the primary field and yields data. -/

def firstFallback {V : Type} (qU : String → Option (Series V)) (field : String) :
    List String → Option String
  | [] => none
  | alt :: rest =>
    if alt = field then firstFallback qU field rest
    else if (qU alt).isSome then some alt else firstFallback qU field rest

/-! ## Query Executor: `_query` -/

/-- One series object of the JSON response: `columns` and `values`.  Cells
are optional values (`none` models JSON `null`). -/

structure SeriesData (V : Type) where
  columns : List String
  values : List (List (Option V))

/-- One entry of the `results` array: its (possibly empty) `series` list. -/

structure ResultEntry (V : Type) where
  series : List (SeriesData V)

/-- The possible outcomes of the HTTP GET in `_query`: the request raises
(unreachable endpoint, timeout) — caught by the surrounding `try` — or a
response arrives with a status code and a body; `body = none` models a body
that `r.json()` cannot parse, otherwise the body is the `results` array
(empty or missing `results` is the empty list, matching the falsiness test
`not data.get("results")`). -/

inductive HttpResult (V : Type) where
  | unreachable : HttpResult V
  | response (status : Nat) (body : Option (List (ResultEntry V))) : HttpResult V

/-- The tabular parse in `_query`:
`pd.DataFrame(s["values"], columns=s["columns"])` requires every row to have
one cell per column, and the subsequent `df["time"]` / `df["value"]`
selections and `pd.to_datetime(df["time"])` need a `time` and a `value`
column with parseable, non-null time cells; any shape failure raises, which
`_query` catches into `None`.  `timeOf` abstracts `pd.to_datetime`
(`none` = unparseable). -/

def parseSeries {V : Type} (timeOf : V → Option Nat) (sd : SeriesData V) :
    Option (Series (Option V)) :=
  if sd.values.all (fun row => row.length == sd.columns.length) then
    match sd.columns.findIdx? (fun c => c == "time"),
        sd.columns.findIdx? (fun c => c == "value") with
    | some ti, some vi =>
      sd.values.mapM (fun row =>
        match row.getD ti none with
        | some tv => (timeOf tv).map (fun t => (t, row.getD vi none))
        | none => none)
    | _, _ => none
  else none

/-- `_query`: every failure path — unreachable endpoint, non-200 status,
unparsable body, missing `results`, missing `series`, or a table that cannot
be parsed — resolves to the explicit no-data value `none`; otherwise the
parsed series of `results[0].series[0]` is returned. -/

def queryHttp {V : Type} (timeOf : V → Option Nat) :
    HttpResult V → Option (Series (Option V))
  | HttpResult.unreachable => none
  | HttpResult.response status body =>
    if status ≠ 200 then none
    else
      match body with
      | none => none
      | some results =>
        match results with
        | [] => none
        | r0 :: _ =>
          match r0.series with
          | [] => none
          | s0 :: _ => parseSeries timeOf s0

/-! ## Theorems -/

theorem chainB_singleton {s e : Nat} {c : Nat × Nat} :
    chainB s [c] e = true ↔ s = c.1 ∧ c.1 < c.2 ∧ c.2 = e := by
  simp [chainB, Bool.and_eq_true, decide_eq_true_eq, and_assoc]

theorem chainB_cons₂ {s e : Nat} {c c2 : Nat × Nat} {rest : List (Nat × Nat)} :
    chainB s (c :: c2 :: rest) e = true ↔
      s = c.1 ∧ c.1 < c.2 ∧ chainB c.2 (c2 :: rest) e = true := by
  simp [chainB, Bool.and_eq_true, decide_eq_true_eq, and_assoc]

theorem chainB_lt {l : List (Nat × Nat)} :
    ∀ {s e : Nat}, chainB s l e = true → s < e := by
  induction l with
  | nil => intro s e h; simp [chainB] at h
  | cons c tail ih =>
    intro s e h
    cases tail with
    | nil =>
      rcases chainB_singleton.mp h with ⟨h1, h2, h3⟩
      omega
    | cons c2 rest =>
      rcases chainB_cons₂.mp h with ⟨h1, h2, h3⟩
      have := ih h3
      omega

theorem chainB_head {l : List (Nat × Nat)} {s e : Nat} (h : chainB s l e = true) :
    l.head?.map Prod.fst = some s := by
  cases l with
  | nil => simp [chainB] at h
  | cons c tail =>
    cases tail with
    | nil => rcases chainB_singleton.mp h with ⟨h1, _, _⟩; simp [h1]
    | cons c2 rest => rcases chainB_cons₂.mp h with ⟨h1, _, _⟩; simp [h1]

theorem chainB_last {l : List (Nat × Nat)} :
    ∀ {s e : Nat}, chainB s l e = true → l.getLast?.map Prod.snd = some e := by
  induction l with
  | nil => intro s e h; simp [chainB] at h
  | cons c tail ih =>
    intro s e h
    cases tail with
    | nil => rcases chainB_singleton.mp h with ⟨_, _, h3⟩; simp [h3]
    | cons c2 rest =>
      rcases chainB_cons₂.mp h with ⟨_, _, h3⟩
      have := ih h3
      simpa [List.getLast?_cons_cons] using this

/-- A chunk chain covers each instant of the half-open interval `[s, e)`
exactly once: the chunks, read as half-open intervals, partition `[s, e)`. -/
theorem chainB_countP {l : List (Nat × Nat)} :
    ∀ {s e : Nat}, chainB s l e = true → ∀ x : Nat,
      l.countP (fun c => decide (c.1 ≤ x ∧ x < c.2)) = if s ≤ x ∧ x < e then 1 else 0 := by
  induction l with
  | nil => intro s e h; simp [chainB] at h
  | cons c tail ih =>
    intro s e h x
    cases tail with
    | nil =>
      rcases chainB_singleton.mp h with ⟨h1, h2, h3⟩
      subst h1; subst h3
      simp only [List.countP_cons, List.countP_nil]
      by_cases hx : c.1 ≤ x ∧ x < c.2
      · rw [if_pos hx]; simp [hx]
      · rw [if_neg hx]; simp [hx]
    | cons c2 rest =>
      rcases chainB_cons₂.mp h with ⟨h1, h2, h3⟩
      subst h1
      have hlt := chainB_lt h3
      have hrest := ih h3 x
      simp only [List.countP_cons, hrest, decide_eq_true_eq]
      by_cases hx : c.1 ≤ x ∧ x < c.2 <;>
        by_cases hx2 : c.2 ≤ x ∧ x < e <;>
        by_cases hx3 : c.1 ≤ x ∧ x < e <;>
        simp [hx, hx2, hx3] <;> omega

theorem chunkLoop_chainB {delta : Nat} (hd : 0 < delta) :
    ∀ (fuel t e : Nat), t < e → e - t ≤ fuel →
      chainB t (chunkLoop fuel delta t e) e = true := by
  intro fuel
  induction fuel with
  | zero => intro t e ht hf; omega
  | succ f ih =>
    intro t e ht hf
    have hstep : t < min (t + delta) e := by omega
    rw [chunkLoop, if_pos ht]
    by_cases hm : min (t + delta) e < e
    · have hrest := ih (min (t + delta) e) e hm (by omega)
      have hne : chunkLoop f delta (min (t + delta) e) e ≠ [] := by
        intro hnil
        rw [hnil] at hrest
        simp [chainB] at hrest
      rcases hl : chunkLoop f delta (min (t + delta) e) e with _ | ⟨c2, rest⟩
      · exact absurd hl hne
      · rw [hl] at hrest
        exact chainB_cons₂.mpr ⟨rfl, hstep, hrest⟩
    · have hme : min (t + delta) e = e := by omega
      have hnil : chunkLoop f delta (min (t + delta) e) e = [] := by
        cases f with
        | zero => rfl
        | succ f' => rw [chunkLoop, if_neg (by omega)]
      rw [hnil]
      exact chainB_singleton.mpr ⟨rfl, hstep, hme⟩

theorem chunkDays_pos {i : String} {d : Nat} (h : chunkDays i = some d) : 0 < d := by
  unfold chunkDays at h
  split at h
  · simp at h; omega
  · split at h
    · simp at h; omega
    · split at h
      · simp at h; omega
      · simp at h

theorem chunk_time_ranges_chainB {s e : Nat} (i : String) (h : s < e) :
    chainB s (chunk_time_ranges s e i) e = true := by
  unfold chunk_time_ranges
  rw [if_neg (by omega)]
  cases hd : chunkDays i with
  | none => exact chainB_singleton.mpr ⟨rfl, h, rfl⟩
  | some days =>
    have hpos : 0 < days * 86400 := by
      have := chunkDays_pos hd
      positivity
    have hchain := chunkLoop_chainB hpos (e - s) s e h (le_refl _)
    simp only []
    have hne : (chunkLoop (e - s) (days * 86400) s e).isEmpty = false := by
      rcases hl : chunkLoop (e - s) (days * 86400) s e with _ | ⟨c, rest⟩
      · rw [hl] at hchain; simp [chainB] at hchain
      · rfl
    rw [hne]
    simpa using hchain

theorem chunk_time_ranges_degenerate {s e : Nat} (i : String) (h : e ≤ s) :
    chunk_time_ranges s e i = [(s, e)] := by
  unfold chunk_time_ranges
  rw [if_pos (by omega)]

theorem chunk_time_ranges_coarse {s e : Nat} {i : String}
    (h : i = "5m" ∨ i = "15m" ∨ i = "1h") :
    chunk_time_ranges s e i = [(s, e)] := by
  have hd : chunkDays i = none := by
    rcases h with h | h | h <;> subst h <;> rfl
  unfold chunk_time_ranges
  split
  · rfl
  · rw [hd]

/-- C1.  For `start < end` and any resolution token, `_chunk_time_ranges`
returns an ordered, contiguous chain of nondegenerate chunks whose first chunk
starts at `start` and whose last chunk ends at `end`, and which — read as
half-open intervals — are pairwise disjoint and cover `[start, end)` exactly
(every instant lies in exactly one chunk).  If `start ≥ end` the single
original pair is returned unchanged, and for the coarse resolutions
"5m", "15m" and "1h" the single original range is returned unchunked. -/
theorem C1_time_chunker_partition (s e : Nat) (i : String) :
    (s < e →
      chainB s (chunk_time_ranges s e i) e = true ∧
      (chunk_time_ranges s e i).head?.map Prod.fst = some s ∧
      (chunk_time_ranges s e i).getLast?.map Prod.snd = some e ∧
      ∀ x : Nat, (chunk_time_ranges s e i).countP (fun c => decide (c.1 ≤ x ∧ x < c.2)) =
        if s ≤ x ∧ x < e then 1 else 0) ∧
    (e ≤ s → chunk_time_ranges s e i = [(s, e)]) ∧
    ((i = "5m" ∨ i = "15m" ∨ i = "1h") → chunk_time_ranges s e i = [(s, e)]) := by
  refine ⟨fun h => ?_, fun h => chunk_time_ranges_degenerate i h,
    fun h => chunk_time_ranges_coarse h⟩
  have hc := chunk_time_ranges_chainB i h
  exact ⟨hc, chainB_head hc, chainB_last hc, chainB_countP hc⟩

/-- Witness for C1 at concrete inputs: a 16-day range at "1s" resolution
(three chunks), a degenerate range, and a coarse resolution. -/
theorem C1_time_chunker_partition_witness :
    chainB 0 (chunk_time_ranges 0 1382400 "1s") 1382400 = true ∧
    (chunk_time_ranges 0 1382400 "1s").countP
      (fun c => decide (c.1 ≤ 604800 ∧ 604800 < c.2)) = 1 ∧
    chunk_time_ranges 7 7 "1s" = [(7, 7)] ∧
    chunk_time_ranges 0 9 "5m" = [(0, 9)] := by
  have h := (C1_time_chunker_partition 0 1382400 "1s").1 (by omega)
  refine ⟨h.1, ?_, (C1_time_chunker_partition 7 7 "1s").2.1 (by omega),
    (C1_time_chunker_partition 0 9 "5m").2.2 (Or.inl rfl)⟩
  have h4 := h.2.2.2 604800
  rw [if_pos (by omega)] at h4
  exact h4

theorem insertByTime_of_le {V : Type} {a : Nat × V} {l : List (Nat × V)}
    (h : ∀ b ∈ l, a.1 ≤ b.1) : insertByTime a l = a :: l := by
  cases l with
  | nil => rfl
  | cons b l => simp [insertByTime, h b (by simp)]

/-- Sorting an already nondecreasing series leaves it unchanged. -/
theorem sortByTime_sorted_id {V : Type} {l : List (Nat × V)}
    (h : l.Pairwise (fun a b => a.1 ≤ b.1)) : sortByTime l = l := by
  induction l with
  | nil => rfl
  | cons a l ih =>
    rcases List.pairwise_cons.mp h with ⟨h1, h2⟩
    rw [sortByTime, ih h2]
    exact insertByTime_of_le h1

theorem dedupKeepLast_eq_nil {V : Type} {l : List (Nat × V)} :
    dedupKeepLast l = [] ↔ l = [] := by
  induction l with
  | nil => simp [dedupKeepLast]
  | cons a l ih =>
    rw [dedupKeepLast]
    split
    · rename_i hany
      simp only [ih]
      constructor
      · intro h; subst h; simp at hany
      · intro h; exact absurd h (by simp)
    · simp

/-- Deduplication preserves the set of timestamps present in the series. -/
theorem dedupKeepLast_keys_mem {V : Type} {l : List (Nat × V)} {t : Nat} :
    (∃ p ∈ dedupKeepLast l, p.1 = t) ↔ ∃ p ∈ l, p.1 = t := by
  induction l with
  | nil => simp [dedupKeepLast]
  | cons a l ih =>
    rw [dedupKeepLast]
    split
    · rename_i hany
      rw [ih]
      constructor
      · rintro ⟨p, hp, hpt⟩
        exact ⟨p, List.mem_cons_of_mem _ hp, hpt⟩
      · rintro ⟨p, hp, hpt⟩
        rcases List.mem_cons.mp hp with h | h
        · subst h
          rcases List.any_eq_true.mp hany with ⟨b, hb, hbt⟩
          have hb1 : b.1 = p.1 := by simpa using hbt
          exact ⟨b, hb, hb1.trans hpt⟩
        · exact ⟨p, h, hpt⟩
    · constructor
      · rintro ⟨p, hp, hpt⟩
        rcases List.mem_cons.mp hp with h | h
        · subst h; exact ⟨p, List.mem_cons_self _ _, hpt⟩
        · rcases ih.mp ⟨p, h, hpt⟩ with ⟨b, hb, hbt⟩
          exact ⟨b, List.mem_cons_of_mem _ hb, hbt⟩
      · rintro ⟨p, hp, hpt⟩
        rcases List.mem_cons.mp hp with h | h
        · subst h; exact ⟨p, List.mem_cons_self _ _, hpt⟩
        · rcases ih.mpr ⟨p, h, hpt⟩ with ⟨b, hb, hbt⟩
          exact ⟨b, List.mem_cons_of_mem _ hb, hbt⟩

/-- Deduplicating a series whose timestamps are pairwise distinct changes
nothing. -/
theorem dedupKeepLast_of_pairwise_ne {V : Type} {l : List (Nat × V)}
    (h : l.Pairwise (fun a b => a.1 ≠ b.1)) : dedupKeepLast l = l := by
  induction l with
  | nil => rfl
  | cons a l ih =>
    rcases List.pairwise_cons.mp h with ⟨h1, h2⟩
    have hany : (l.any (fun b => b.1 == a.1)) = false := by
      rw [List.any_eq_false]
      intro b hb
      simpa using (h1 b hb).symm
    rw [dedupKeepLast, hany]
    simp [ih h2]

/-- Splitting deduplication across an append whose left part has pairwise
distinct timestamps: an entry of the left part survives exactly when its
timestamp does not occur in the right part. -/
theorem dedupKeepLast_append {V : Type} {A B : List (Nat × V)}
    (hA : A.Pairwise (fun a b => a.1 ≠ b.1)) :
    dedupKeepLast (A ++ B) =
      A.filter (fun a => !(B.any (fun b => b.1 == a.1))) ++ dedupKeepLast B := by
  induction A with
  | nil => simp
  | cons a A ih =>
    rcases List.pairwise_cons.mp hA with ⟨h1, h2⟩
    rw [List.cons_append, dedupKeepLast]
    have hAany : (A.any (fun b => b.1 == a.1)) = false := by
      rw [List.any_eq_false]
      intro b hb
      simpa using (h1 b hb).symm
    rw [List.any_append, hAany, Bool.false_or]
    by_cases hB : (B.any (fun b => b.1 == a.1)) = true
    · rw [hB, if_pos rfl, ih h2, List.filter_cons]
      simp [hB]
    · have hB' : (B.any (fun b => b.1 == a.1)) = false := Bool.eq_false_iff.mpr hB
      rw [hB', if_neg (by simp), ih h2, List.filter_cons]
      simp [hB']

theorem getLast?_cons_of_ne_nil {α : Type} {a : α} {l : List α} (h : l ≠ []) :
    (a :: l).getLast? = l.getLast? := by
  cases l with
  | nil => exact absurd rfl h
  | cons b l => rw [List.getLast?_cons_cons]

/-- Last-write-wins characterization of `dedupKeepLast`: an entry is in the
deduplicated series exactly when it is the last entry of the original series
carrying its timestamp. -/
theorem dedupKeepLast_mem_iff {V : Type} {l : List (Nat × V)} {p : Nat × V} :
    p ∈ dedupKeepLast l ↔ (l.filter (fun x => x.1 == p.1)).getLast? = some p := by
  induction l with
  | nil => simp [dedupKeepLast]
  | cons a l ih =>
    rw [dedupKeepLast]
    split
    · rename_i hany
      rw [List.filter_cons]
      by_cases hk : (a.1 == p.1) = true
      · rw [if_pos hk]
        have hfil : l.filter (fun x => x.1 == p.1) ≠ [] := by
          rcases List.any_eq_true.mp hany with ⟨b, hb, hbt⟩
          have hb1 : b.1 = a.1 := by simpa using hbt
          have hbp : (b.1 == p.1) = true := by
            have : a.1 = p.1 := by simpa using hk
            simp [hb1, this]
          intro hnil
          have hbmem : b ∈ List.filter (fun x => x.1 == p.1) l :=
            List.mem_filter.mpr ⟨hb, hbp⟩
          rw [hnil] at hbmem
          simp at hbmem
        rw [getLast?_cons_of_ne_nil hfil]
        exact ih
      · rw [if_neg hk]
        exact ih
    · rename_i hany
      have hany' : ∀ b ∈ l, b.1 ≠ a.1 := by
        intro b hb
        have := List.any_eq_false.mp (Bool.eq_false_iff.mpr hany) b hb
        simpa using this
      rw [List.filter_cons]
      by_cases hk : (a.1 == p.1) = true
      · rw [if_pos hk]
        have hap : a.1 = p.1 := by simpa using hk
        have hfil : l.filter (fun x => x.1 == p.1) = [] := by
          rw [List.filter_eq_nil_iff]
          intro b hb
          simp [hap ▸ hany' b hb]
        rw [hfil]
        simp only [List.getLast?_singleton, List.mem_cons, Option.some.injEq]
        constructor
        · rintro (h | h)
          · exact h.symm
          · rcases ih.mp h with hlast
            rw [hfil] at hlast
            simp at hlast
        · intro h; exact Or.inl h.symm
      · rw [if_neg hk]
        have hne : p ≠ a := by
          intro h; subst h; simp at hk
        simp only [List.mem_cons]
        constructor
        · rintro (h | h)
          · exact absurd h hne
          · exact ih.mp h
        · intro h; exact Or.inr (ih.mpr h)

theorem mem_filterMap_pts {V : Type} {pts : Nat → Option V} {L : List Nat} {p : Nat × V} :
    p ∈ L.filterMap (fun t => (pts t).map (fun v => (t, v))) ↔
      p.1 ∈ L ∧ pts p.1 = some p.2 := by
  constructor
  · intro h
    rcases List.mem_filterMap.mp h with ⟨t, ht, hm⟩
    rcases Option.map_eq_some'.mp hm with ⟨v, hv, hpv⟩
    cases hpv
    exact ⟨ht, hv⟩
  · rintro ⟨h1, h2⟩
    refine List.mem_filterMap.mpr ⟨p.1, h1, ?_⟩
    rw [h2]
    simp

theorem mem_pointsIn {V : Type} {pts : Nat → Option V} {s e : Nat} {p : Nat × V} :
    p ∈ pointsIn pts s e ↔ s ≤ p.1 ∧ p.1 ≤ e ∧ pts p.1 = some p.2 := by
  rw [pointsIn, mem_filterMap_pts, List.mem_range'_1]
  constructor
  · rintro ⟨⟨ha, hb⟩, hc⟩
    exact ⟨ha, by omega, hc⟩
  · rintro ⟨ha, hb, hc⟩
    exact ⟨⟨ha, by omega⟩, hc⟩

theorem pointsIn_sorted {V : Type} (pts : Nat → Option V) (s e : Nat) :
    (pointsIn pts s e).Pairwise (fun a b => a.1 < b.1) :=
  List.Pairwise.filterMap _
    (fun a a' hr => by
      rintro ⟨ta, va⟩ hb ⟨tb, vb⟩ hb'
      rcases Option.map_eq_some'.mp hb with ⟨v, _, hv⟩
      rcases Option.map_eq_some'.mp hb' with ⟨v', _, hv'⟩
      cases hv; cases hv'
      exact hr)
    (List.pairwise_lt_range' s (e + 1 - s))

/-- Splitting the points of `[t, e]` at an interior instant `m`:
the points strictly before `m` followed by the points of `[m, e]`. -/
theorem pointsIn_split {V : Type} (pts : Nat → Option V) {t m e : Nat}
    (h1 : t ≤ m) (h2 : m ≤ e) :
    pointsIn pts t e =
      (List.range' t (m - t)).filterMap (fun τ => (pts τ).map (fun v => (τ, v))) ++
        pointsIn pts m e := by
  rw [pointsIn, pointsIn]
  have hsum : e + 1 - t = (e + 1 - m) + (m - t) := by omega
  rw [hsum, ← List.range'_append_1 t (m - t) (e + 1 - m)]
  have htm : t + (m - t) = m := by omega
  rw [htm, List.filterMap_append]

/-- The flattened concatenation of the per-chunk point lists of a chunk chain
is nondecreasing in time, lies inside `[t, e]`, and after last-write-wins
deduplication equals the point list of the whole range. -/
theorem chain_flatten_pointsIn {V : Type} {pts : Nat → Option V} {e : Nat} :
    ∀ {chunks : List (Nat × Nat)} {t : Nat}, chainB t chunks e = true →
      ((chunks.map (fun c => pointsIn pts c.1 c.2)).flatten).Pairwise
        (fun a b => a.1 ≤ b.1) ∧
      (∀ p ∈ (chunks.map (fun c => pointsIn pts c.1 c.2)).flatten,
        t ≤ p.1 ∧ p.1 ≤ e) ∧
      dedupKeepLast ((chunks.map (fun c => pointsIn pts c.1 c.2)).flatten) =
        pointsIn pts t e := by
  intro chunks
  induction chunks with
  | nil => intro t h; simp [chainB] at h
  | cons c tail ih =>
    intro t h
    cases tail with
    | nil =>
      rcases chainB_singleton.mp h with ⟨h1, h2, h3⟩
      subst h1; subst h3
      have hsorted := pointsIn_sorted pts c.1 c.2
      refine ⟨?_, ?_, ?_⟩
      · simpa using hsorted.imp (fun {a b} hab => Nat.le_of_lt hab)
      · intro p hp
        simp only [List.map_cons, List.map_nil, List.flatten_cons,
          List.flatten_nil, List.append_nil] at hp
        have := mem_pointsIn.mp hp
        exact ⟨this.1, this.2.1⟩
      · simp only [List.map_cons, List.map_nil, List.flatten_cons,
          List.flatten_nil, List.append_nil]
        exact dedupKeepLast_of_pairwise_ne
          (hsorted.imp (fun {a b} hab => Nat.ne_of_lt hab))
    | cons c2 rest =>
      rcases chainB_cons₂.mp h with ⟨h1, h2, h3⟩
      subst h1
      have hme : c.2 < e := chainB_lt h3
      rcases ih h3 with ⟨ihSorted, ihBounds, ihDedup⟩
      have hAsorted := pointsIn_sorted pts c.1 c.2
      have hAbound : ∀ p ∈ pointsIn pts c.1 c.2, c.1 ≤ p.1 ∧ p.1 ≤ c.2 := by
        intro p hp
        have := mem_pointsIn.mp hp
        exact ⟨this.1, this.2.1⟩
      rw [List.map_cons, List.flatten_cons]
      refine ⟨?_, ?_, ?_⟩
      · rw [List.pairwise_append]
        refine ⟨hAsorted.imp (fun {a b} hab => Nat.le_of_lt hab), ihSorted, ?_⟩
        intro a ha b hb
        have h4 := (hAbound a ha).2
        have h5 := (ihBounds b hb).1
        omega
      · intro p hp
        rcases List.mem_append.mp hp with hp | hp
        · have := hAbound p hp
          omega
        · have := ihBounds p hp
          omega
      · rw [dedupKeepLast_append (hAsorted.imp (fun {a b} hab => Nat.ne_of_lt hab)),
          ihDedup]
        have hkeysJ : ∀ τ : Nat,
            (∃ q ∈ ((c2 :: rest).map (fun c => pointsIn pts c.1 c.2)).flatten, q.1 = τ) ↔
              ∃ q ∈ pointsIn pts c.2 e, q.1 = τ := by
          intro τ
          constructor
          · rintro ⟨q, hq, ht⟩
            have hmem : ∃ p ∈ dedupKeepLast
                (((c2 :: rest).map (fun c => pointsIn pts c.1 c.2)).flatten), p.1 = τ :=
              dedupKeepLast_keys_mem.mpr ⟨q, hq, ht⟩
            rwa [ihDedup] at hmem
          · rintro ⟨q, hq, ht⟩
            refine dedupKeepLast_keys_mem.mp ⟨q, ?_, ht⟩
            rw [ihDedup]
            exact hq
        have hcong : ∀ a ∈ pointsIn pts c.1 c.2,
            (!((((c2 :: rest).map (fun c => pointsIn pts c.1 c.2)).flatten).any
              (fun b => b.1 == a.1))) = (!(a.1 == c.2)) := by
          intro a ha
          rcases mem_pointsIn.mp ha with ⟨ha1, ha2, ha3⟩
          by_cases hac : a.1 = c.2
          · have hany : ((((c2 :: rest).map (fun c => pointsIn pts c.1 c.2)).flatten).any
                (fun b => b.1 == a.1)) = true := by
              rw [List.any_eq_true]
              rcases (hkeysJ a.1).mpr
                  ⟨(a.1, a.2), mem_pointsIn.mpr ⟨by omega, by omega, ha3⟩, rfl⟩ with
                ⟨q, hq, hqt⟩
              exact ⟨q, hq, by simp [hqt]⟩
            rw [hany, hac]
            simp
          · have hany : ((((c2 :: rest).map (fun c => pointsIn pts c.1 c.2)).flatten).any
                (fun b => b.1 == a.1)) = false := by
              rw [List.any_eq_false]
              intro b hb hbt
              have hb1 : b.1 = a.1 := by simpa using hbt
              rcases (hkeysJ a.1).mp ⟨b, hb, hb1⟩ with ⟨q, hqmem, hqt⟩
              rcases mem_pointsIn.mp hqmem with ⟨hq1, _, _⟩
              omega
            rw [hany]
            simp [hac]
        rw [List.filter_congr hcong]
        have hA : pointsIn pts c.1 c.2 =
            (List.range' c.1 (c.2 - c.1)).filterMap
              (fun t => (pts t).map (fun v => (t, v))) ++
            ([c.2].filterMap (fun t => (pts t).map (fun v => (t, v)))) := by
          rw [pointsIn]
          have hn : c.2 + 1 - c.1 = (c.2 - c.1) + 1 := by omega
          rw [hn, List.range'_1_concat]
          have hc2 : c.1 + (c.2 - c.1) = c.2 := by omega
          rw [hc2, List.filterMap_append]
        rw [hA, List.filter_append]
        have hfst : List.filter (fun a => !(a.1 == c.2))
            ((List.range' c.1 (c.2 - c.1)).filterMap
              (fun t => (pts t).map (fun v => (t, v)))) =
            (List.range' c.1 (c.2 - c.1)).filterMap
              (fun t => (pts t).map (fun v => (t, v))) := by
          rw [List.filter_eq_self]
          intro a ha
          rcases mem_filterMap_pts.mp ha with ⟨hmem, _⟩
          rcases List.mem_range'_1.mp hmem with ⟨_, hlt⟩
          have : a.1 ≠ c.2 := by omega
          simp [this]
        have hsnd : List.filter (fun a => !(a.1 == c.2))
            ([c.2].filterMap (fun t => (pts t).map (fun v => (t, v)))) = [] := by
          rw [List.filter_eq_nil_iff]
          intro a ha
          rcases mem_filterMap_pts.mp ha with ⟨hmem, _⟩
          have : a.1 = c.2 := by simpa using hmem
          simp [this]
        rw [hfst, hsnd, List.append_nil]
        exact (pointsIn_split pts (Nat.le_of_lt h2) (Nat.le_of_lt hme)).symm

theorem filterMap_queryModel_flatten {V : Type} (pts : Nat → Option V) :
    ∀ chunks : List (Nat × Nat),
      ((chunks.filterMap (fun c => queryModel pts c.1 c.2)).flatten) =
        ((chunks.map (fun c => pointsIn pts c.1 c.2)).flatten) := by
  intro chunks
  induction chunks with
  | nil => rfl
  | cons c tail ih =>
    rw [List.map_cons, List.flatten_cons]
    cases hq : queryModel pts c.1 c.2 with
    | none =>
      have hnil : pointsIn pts c.1 c.2 = [] := by
        rw [queryModel] at hq
        split at hq
        · rename_i hemp
          exact List.isEmpty_eq_true.mp hemp
        · simp at hq
      simp only [List.filterMap_cons, hq, hnil, List.nil_append]
      exact ih
    | some l =>
      have hl : l = pointsIn pts c.1 c.2 := by
        rw [queryModel] at hq
        split at hq
        · simp at hq
        · injection hq with hq
          exact hq.symm
      simp only [List.filterMap_cons, hq, List.flatten_cons, hl]
      rw [ih]

theorem queryModel_mem_ne_nil {V : Type} {pts : Nat → Option V}
    {chunks : List (Nat × Nat)} {l : Series V}
    (h : l ∈ chunks.filterMap (fun c => queryModel pts c.1 c.2)) : l ≠ [] := by
  rcases List.mem_filterMap.mp h with ⟨c, _, hc⟩
  rw [queryModel] at hc
  split at hc
  · simp at hc
  · rename_i hne
    injection hc with hc
    subst hc
    intro hnil
    exact hne (by simp [hnil])

/-- C2.  Refinement: against a consistent endpoint — one whose single-range
response is exactly the union of the data points its per-chunk responses
return, i.e. the `queryModel` of a ground-truth bucket function — the chunked
fetcher `_query_chunked` returns exactly what the hypothetical single
unchunked `_query` over the full range returns.  Timestamps duplicated on a
chunk boundary carry equal values in both chunks, so last-write-wins
deduplication makes the two results agree exactly. -/
theorem C2_chunked_refines_unchunked {V : Type} (pts : Nat → Option V) (s e : Nat)
    (interval : String) :
    queryChunkedWith (queryModel pts) s e interval = queryModel pts s e := by
  simp only [queryChunkedWith]
  by_cases hlen : (chunk_time_ranges s e interval).length ≤ 1
  · rw [if_pos hlen]
  · rw [if_neg hlen]
    have hse : s < e := by
      by_contra hc
      rw [chunk_time_ranges_degenerate interval (by omega)] at hlen
      simp at hlen
    have hchain := chunk_time_ranges_chainB interval hse
    rcases @chain_flatten_pointsIn V pts e _ _ hchain with ⟨hsorted, _, hdedup⟩
    have hflat := filterMap_queryModel_flatten pts (chunk_time_ranges s e interval)
    by_cases hempty :
        ((chunk_time_ranges s e interval).filterMap
          (fun c => queryModel pts c.1 c.2)).isEmpty
    · have hser := List.isEmpty_eq_true.mp hempty
      have hmapflat : ((chunk_time_ranges s e interval).map
          (fun c => pointsIn pts c.1 c.2)).flatten = [] := by
        rw [← hflat, hser]
        rfl
      have hpts : pointsIn pts s e = [] := by
        rw [← hdedup, hmapflat]
        rfl
      rw [if_pos hempty, queryModel, if_pos (by simp [hpts])]
    · rw [if_neg hempty]
      have key : dedupKeepLast (sortByTime
          (((chunk_time_ranges s e interval).filterMap
            (fun c => queryModel pts c.1 c.2)).flatten)) = pointsIn pts s e := by
        rw [hflat, sortByTime_sorted_id hsorted, hdedup]
      have hne : pointsIn pts s e ≠ [] := by
        intro hnil
        have h1 : ((chunk_time_ranges s e interval).map
            (fun c => pointsIn pts c.1 c.2)).flatten = [] :=
          dedupKeepLast_eq_nil.mp (by rw [hdedup, hnil])
        have h2 : ((chunk_time_ranges s e interval).filterMap
            (fun c => queryModel pts c.1 c.2)).flatten = [] := by
          rw [hflat]
          exact h1
        rcases hs : (chunk_time_ranges s e interval).filterMap
            (fun c => queryModel pts c.1 c.2) with _ | ⟨l, rest⟩
        · rw [hs] at hempty
          simp at hempty
        · have hlmem : l ∈ (chunk_time_ranges s e interval).filterMap
              (fun c => queryModel pts c.1 c.2) := by
            rw [hs]
            exact List.mem_cons_self _ _
          have hlnil := List.flatten_eq_nil_iff.mp h2 l hlmem
          exact queryModel_mem_ne_nil hlmem hlnil
      rw [key, queryModel, if_neg (by simp [hne])]

/-- For per-chunk query results that are strictly time-sorted and stay inside
their chunk's inclusive range, the concatenation of the returned series in
chunk order is nondecreasing in time and stays inside the whole range. -/
theorem chain_filterMap_sorted {V : Type} {q : Nat → Nat → Option (Series V)} {e : Nat} :
    ∀ {chunks : List (Nat × Nat)} {t : Nat}, chainB t chunks e = true →
      (∀ c ∈ chunks, ∀ l, q c.1 c.2 = some l →
        l.Pairwise (fun a b => a.1 < b.1) ∧ ∀ p ∈ l, c.1 ≤ p.1 ∧ p.1 ≤ c.2) →
      ((chunks.filterMap (fun c => q c.1 c.2)).flatten).Pairwise
        (fun a b => a.1 ≤ b.1) ∧
      (∀ p ∈ (chunks.filterMap (fun c => q c.1 c.2)).flatten,
        t ≤ p.1 ∧ p.1 ≤ e) := by
  intro chunks
  induction chunks with
  | nil => intro t h _; simp [chainB] at h
  | cons c tail ih =>
    intro t h hOK
    have hOKtail : ∀ c' ∈ tail, ∀ l, q c'.1 c'.2 = some l →
        l.Pairwise (fun a b => a.1 < b.1) ∧ ∀ p ∈ l, c'.1 ≤ p.1 ∧ p.1 ≤ c'.2 :=
      fun c' hc' => hOK c' (List.mem_cons_of_mem _ hc')
    have hOKc := hOK c (List.mem_cons_self _ _)
    cases tail with
    | nil =>
      rcases chainB_singleton.mp h with ⟨h1, h2, h3⟩
      subst h1; subst h3
      cases hq : q c.1 c.2 with
      | none => simp [List.filterMap_cons, hq]
      | some l =>
        rcases hOKc l hq with ⟨hls, hlb⟩
        simp only [List.filterMap_cons, hq, List.filterMap_nil, List.flatten_cons,
          List.flatten_nil, List.append_nil]
        exact ⟨hls.imp (fun {a b} hab => Nat.le_of_lt hab), hlb⟩
    | cons c2 rest =>
      rcases chainB_cons₂.mp h with ⟨h1, h2, h3⟩
      subst h1
      have hme : c.2 < e := chainB_lt h3
      rcases ih h3 hOKtail with ⟨ihSorted, ihBounds⟩
      cases hq : q c.1 c.2 with
      | none =>
        simp only [List.filterMap_cons, hq]
        refine ⟨ihSorted, ?_⟩
        intro p hp
        have := ihBounds p hp
        omega
      | some l =>
        rcases hOKc l hq with ⟨hls, hlb⟩
        simp only [List.filterMap_cons, hq, List.flatten_cons]
        constructor
        · rw [List.pairwise_append]
          refine ⟨hls.imp (fun {a b} hab => Nat.le_of_lt hab), ihSorted, ?_⟩
          intro a ha b hb
          have h4 := (hlb a ha).2
          have h5 := (ihBounds b hb).1
          omega
        · intro p hp
          rcases List.mem_append.mp hp with hp | hp
          · have := hlb p hp
            omega
          · have := ihBounds p hp
            omega

/-- C4.  Over a multi-chunk range, `_query_chunked` returns `None` exactly
when every per-chunk query yielded nothing; otherwise it returns the
concatenation in chunk order of the non-empty per-chunk series with exact
timestamp collisions deduplicated, and an entry survives deduplication
exactly when it is the last entry with its timestamp in concatenation order
(last-write-wins, so a boundary timestamp keeps the later chunk's value). -/
theorem C4_query_chunked_dedup {V : Type} (q : Nat → Nat → Option (Series V))
    (s e : Nat) (interval : String)
    (hmulti : 2 ≤ (chunk_time_ranges s e interval).length)
    (hOK : ∀ c ∈ chunk_time_ranges s e interval, ∀ l, q c.1 c.2 = some l →
      l.Pairwise (fun a b => a.1 < b.1) ∧ ∀ p ∈ l, c.1 ≤ p.1 ∧ p.1 ≤ c.2) :
    (queryChunkedWith q s e interval = none ↔
      ∀ c ∈ chunk_time_ranges s e interval, q c.1 c.2 = none) ∧
    ((¬ ∀ c ∈ chunk_time_ranges s e interval, q c.1 c.2 = none) →
      queryChunkedWith q s e interval =
        some (dedupKeepLast
          (((chunk_time_ranges s e interval).filterMap (fun c => q c.1 c.2)).flatten))) ∧
    (∀ p : Nat × V,
      p ∈ dedupKeepLast
          (((chunk_time_ranges s e interval).filterMap (fun c => q c.1 c.2)).flatten) ↔
        ((((chunk_time_ranges s e interval).filterMap
          (fun c => q c.1 c.2)).flatten).filter
            (fun x => x.1 == p.1)).getLast? = some p) := by
  have hse : s < e := by
    by_contra hc
    rw [chunk_time_ranges_degenerate interval (by omega)] at hmulti
    simp at hmulti
  have hchain := chunk_time_ranges_chainB interval hse
  rcases chain_filterMap_sorted hchain hOK with ⟨hsorted, _⟩
  have hallnone : (∀ c ∈ chunk_time_ranges s e interval, q c.1 c.2 = none) ↔
      ((chunk_time_ranges s e interval).filterMap (fun c => q c.1 c.2)).isEmpty = true := by
    rw [List.isEmpty_eq_true, List.filterMap_eq_nil_iff]
  simp only [queryChunkedWith]
  rw [if_neg (by omega)]
  refine ⟨?_, ?_, fun p => dedupKeepLast_mem_iff⟩
  · by_cases hempty : ((chunk_time_ranges s e interval).filterMap
        (fun c => q c.1 c.2)).isEmpty
    · rw [if_pos hempty]
      exact iff_of_true rfl (hallnone.mpr hempty)
    · rw [if_neg hempty]
      exact iff_of_false (by simp) (fun hall => hempty (hallnone.mp hall))
  · intro hnot
    have hempty : ((chunk_time_ranges s e interval).filterMap
        (fun c => q c.1 c.2)).isEmpty ≠ true := fun hh => hnot (hallnone.mpr hh)
    rw [if_neg hempty, sortByTime_sorted_id hsorted]

/-- Witness for C4: a 15-day range at "1m" resolution splits into two chunks;
a per-chunk query returning one point at the chunk start satisfies the
sortedness and range hypotheses, and the chunked fetch returns the two points
merged. -/
theorem C4_query_chunked_dedup_witness :
    queryChunkedWith (fun cs _ => some [(cs, (0 : Nat))]) 0 1209601 "1m" =
      some [(0, 0), (1209600, 0)] := by
  have hchunks : chunk_time_ranges 0 1209601 "1m" = [(0, 1209600), (1209600, 1209601)] := by
    decide
  have h := C4_query_chunked_dedup (fun cs _ => some [(cs, (0 : Nat))]) 0 1209601 "1m"
    (by rw [hchunks]; decide)
    (by
      intro c hc l hl
      rw [hchunks] at hc
      injection hl with hl
      subst hl
      have hcle : c.1 ≤ c.2 := by
        rcases List.mem_cons.mp hc with hc | hc
        · subst hc; decide
        · rcases List.mem_cons.mp hc with hc | hc
          · subst hc; decide
          · simp at hc
      refine ⟨List.pairwise_singleton _ _, ?_⟩
      intro p hp
      have hpc : p = (c.1, 0) := by simpa using hp
      subst hpc
      exact ⟨Nat.le_refl _, hcle⟩)
  have hnot : ¬ ∀ c ∈ chunk_time_ranges 0 1209601 "1m",
      (fun cs _ => some [(cs, (0 : Nat))]) c.1 c.2 = none := by
    intro hall
    have hmem : ((0 : Nat), (1209600 : Nat)) ∈ chunk_time_ranges 0 1209601 "1m" := by
      rw [hchunks]
      exact List.mem_cons_self _ _
    exact absurd (hall _ hmem) (by simp)
  have heq := h.2.1 hnot
  rw [heq, hchunks]
  decide

/-- C8.  Every work item `(col, unit, field)` emitted by `_auto_detect` is
named by the rule: the output column equals the unit's name exactly when the
field is one of the generic placeholder names (`value_f`, `value_b`,
`value_i`), and equals the field's name in every other case. -/
theorem C8_output_column_naming (units : List String) (populated : String → List String)
    (c u f : String) (h : (c, u, f) ∈ autoDetectWork units populated) :
    (placeholderFields.contains f = true → c = u) ∧
    (placeholderFields.contains f = false → c = f) := by
  rcases List.mem_flatMap.mp h with ⟨u', hu', hm⟩
  rcases List.mem_map.mp hm with ⟨f', hf', heq⟩
  injection heq with h1 h23
  injection h23 with h2 h3
  subst h1
  subst h2
  subst h3
  constructor
  · intro hpl
    rw [colNameFor, if_pos hpl]
  · intro hpl
    rw [colNameFor, if_neg (by rw [hpl]; simp)]

/-- Witness for C8 at a concrete run: a non-placeholder field names the
column after the field. -/
theorem C8_output_column_naming_witness :
    (placeholderFields.contains ("temp") = true → ("temp" : String) = "u1") ∧
    (placeholderFields.contains ("temp") = false → ("temp" : String) = "temp") :=
  C8_output_column_naming ["u1"] (fun _ => ["temp"]) "temp" "u1" "temp" (by decide)

/-- C3 as stated fails on the code: a unit whose probe shows data in both
`value_f` and `value_b` produces two work items that are both named after
the unit, so the output column names of one run are not pairwise distinct
and nothing disambiguates them. -/
theorem C3_duplicate_column_names :
    ¬ ((autoDetectWork ["BD361-A"]
        (fun _ => fieldsWithData (V := Nat) ["time", "unit", "value_f", "value_b"]
          [[some 0, some 0, some 1, some 2]]
          ["value_f", "value_b", "value_i"])).map (fun it => it.1)).Nodup := by
  decide

theorem lookupCol_cons {α : Type} (x : String × α) (d : List (String × α)) (k : String) :
    lookupCol (x :: d) k = if x.1 = k then some x.2 else lookupCol d k := by
  by_cases h : x.1 = k
  · rw [if_pos h, lookupCol, List.find?_cons_of_pos _ (by simp [h])]
    rfl
  · rw [if_neg h, lookupCol, List.find?_cons_of_neg _ (by simp [h])]
    rfl

theorem lookupCol_dictInsert {α : Type} (k k' : String) (v : α) (d : List (String × α)) :
    lookupCol (dictInsert k v d) k' = if k = k' then some v else lookupCol d k' := by
  induction d with
  | nil =>
    rw [dictInsert, lookupCol_cons]
  | cons kv rest ih =>
    rw [dictInsert]
    by_cases h1 : kv.1 = k
    · rw [if_pos h1, lookupCol_cons, lookupCol_cons]
      by_cases h2 : k = k'
      · rw [if_pos h2, if_pos h2]
      · rw [if_neg h2, if_neg h2, if_neg (by rw [h1]; exact h2)]
    · rw [if_neg h1, lookupCol_cons, lookupCol_cons, ih]
      by_cases h2 : kv.1 = k'
      · rw [if_pos h2, if_pos h2, if_neg (by rw [← h2]; exact fun hh => h1 hh.symm)]
      · rw [if_neg h2, if_neg h2]

theorem foldl_stepItem_lookup {V : Type} (q : String → String → Option (Series V))
    (col : String) :
    ∀ (work : List (String × String × String)) (st : RunState V)
      (acc : Option (Series V)), lookupCol st.allData col = acc →
      lookupCol ((work.foldl (stepItem q) st).allData) col =
        work.foldl (fun acc it =>
          match fetchWithFallback (q it.2.1) it.2.2 with
          | some (d, _) => if it.1 = col then some d else acc
          | none => acc) acc := by
  intro work
  induction work with
  | nil => intro st acc h; exact h
  | cons it rest ih =>
    intro st acc h
    rw [List.foldl_cons, List.foldl_cons]
    cases hf : fetchWithFallback (q it.2.1) it.2.2 with
    | none =>
      refine ih (stepItem q st it) _ ?_
      simp only [stepItem, hf]
      exact h
    | some df =>
      refine ih (stepItem q st it) _ ?_
      simp only [stepItem, hf]
      rw [lookupCol_dictInsert, h]

/-- C3 amended.  The output column name is determined by the naming rule
alone (`colNameFor`) and the code does not disambiguate collisions: whenever
two work items share an output column name, the later assignment into
`all_data` overwrites the earlier, so the assembled table's column holds the
series of the last work item with that name that produced data. -/
theorem C3_amended_last_write_wins {V : Type}
    (q : String → String → Option (Series V))
    (work : List (String × String × String)) (col : String) :
    lookupCol ((work.foldl (stepItem q) initState).allData) col =
      lastSuccessData q work col :=
  foldl_stepItem_lookup q col work initState none rfl

theorem tryFallbacks_eq_firstFallback {V : Type} (qU : String → Option (Series V))
    (field : String) :
    ∀ cands : List String,
      tryFallbacks qU field cands =
        (firstFallback qU field cands).bind
          (fun alt => (qU alt).map (fun d => (d, alt))) := by
  intro cands
  induction cands with
  | nil => rfl
  | cons alt rest ih =>
    rw [tryFallbacks, firstFallback]
    by_cases h1 : alt = field
    · rw [if_pos h1, if_pos h1, ih]
    · rw [if_neg h1, if_neg h1]
      cases hq : qU alt with
      | none => rw [ih]; simp [hq]
      | some d => simp [hq]

theorem firstFallback_spec {V : Type} {qU : String → Option (Series V)}
    {field : String} :
    ∀ {cands : List String} {alt : String},
      firstFallback qU field cands = some alt →
        alt ≠ field ∧ (qU alt).isSome := by
  intro cands
  induction cands with
  | nil => intro alt h; simp [firstFallback] at h
  | cons a rest ih =>
    intro alt h
    rw [firstFallback] at h
    by_cases h1 : a = field
    · rw [if_pos h1] at h
      exact ih h
    · rw [if_neg h1] at h
      by_cases h2 : (qU a).isSome
      · rw [if_pos h2] at h
        injection h with h
        subst h
        exact ⟨h1, h2⟩
      · rw [if_neg h2] at h
        exact ih h

/-- C6.  When a work item's primary field yields no data but some field of
the ordered fallback list `(value_i, value_b, value_f, value)` does, the run
counts the item as successful and records the succeeding fallback field —
not the original primary field — as the item's provenance in
`sensor_mapping` and hence in the metadata sidecar's field-mapping
section. -/
theorem C6_fallback_provenance {V : Type} (q : String → String → Option (Series V))
    (st : RunState V) (col unit field alt : String)
    (hprimary : q unit field = none)
    (halt : firstFallback (q unit) field FALLBACK_FIELDS = some alt) :
    alt ≠ field ∧
    (stepItem q st (col, unit, field)).successful = st.successful ++ [col] ∧
    lookupCol (stepItem q st (col, unit, field)).sensorMapping col = some (unit, alt) ∧
    (col, (unit, alt)) ∈ metadataFieldMapping
      (stepItem q st (col, unit, field)).successful
      (stepItem q st (col, unit, field)).sensorMapping := by
  obtain ⟨hne, hsome⟩ := firstFallback_spec halt
  obtain ⟨d, hd⟩ := Option.isSome_iff_exists.mp hsome
  have hfetch : fetchWithFallback (q unit) field = some (d, alt) := by
    rw [fetchWithFallback, hprimary, tryFallbacks_eq_firstFallback, halt]
    simp [hd]
  have hsucc : (stepItem q st (col, unit, field)).successful = st.successful ++ [col] := by
    simp [stepItem, hfetch]
  have hmap : lookupCol (stepItem q st (col, unit, field)).sensorMapping col =
      some (unit, alt) := by
    simp only [stepItem, hfetch]
    rw [lookupCol_dictInsert, if_pos rfl]
  refine ⟨hne, hsucc, hmap, ?_⟩
  rw [metadataFieldMapping]
  refine List.mem_map.mpr ⟨col, ?_, ?_⟩
  · rw [hsucc]
    exact List.mem_append_right _ (List.mem_cons_self _ _)
  · rw [hmap]
    rfl

/-- Witness for C6: the primary `value_f` yields nothing, the fallback scan
succeeds at `value`, and the mapping records `value`. -/
theorem C6_fallback_provenance_witness :
    ("value" : String) ≠ "value_f" ∧
    (stepItem (fun _ f => if f = "value" then some [((0 : Nat), (7 : Nat))] else none)
      initState ("col", "u", "value_f")).successful = [] ++ ["col"] ∧
    lookupCol (stepItem (fun _ f => if f = "value" then some [((0 : Nat), (7 : Nat))] else none)
      initState ("col", "u", "value_f")).sensorMapping "col" = some ("u", "value") ∧
    ("col", ("u", "value")) ∈ metadataFieldMapping
      (stepItem (fun _ f => if f = "value" then some [((0 : Nat), (7 : Nat))] else none)
        initState ("col", "u", "value_f")).successful
      (stepItem (fun _ f => if f = "value" then some [((0 : Nat), (7 : Nat))] else none)
        initState ("col", "u", "value_f")).sensorMapping :=
  C6_fallback_provenance (fun _ f => if f = "value" then some [((0 : Nat), (7 : Nat))] else none)
    initState "col" "u" "value_f" "value" (by decide) (by decide)

/-- C7.  When unit discovery returns an empty list, `_auto_detect` produces
an empty work list, and `run_retrieval` then returns the absent result with
summary `{successful: 0, failed: 0, total_points: 0}`.  No CSV is written:
the early return happens before `df.to_csv`, so the outcome is the same for
every CSV-write effect, including a failing one. -/
theorem C7_empty_discovery {V E : Type} (populated : String → List String)
    (q : String → String → Option (Series V))
    (csvWrite metaBody : Except E Unit) (path : String) :
    autoDetectWork [] populated = [] ∧
    runRetrieval (autoDetectWork [] populated) q csvWrite metaBody path =
      Except.ok ⟨none, ⟨0, 0, 0⟩⟩ :=
  ⟨rfl, rfl⟩

theorem dictInsert_ne_nil {α : Type} (k : String) (v : α) (d : List (String × α)) :
    dictInsert k v d ≠ [] := by
  cases d with
  | nil => simp [dictInsert]
  | cons kv rest =>
    rw [dictInsert]
    split <;> simp

theorem foldl_stepItem_counts {V : Type} (q : String → String → Option (Series V)) :
    ∀ (work : List (String × String × String)) (st : RunState V),
      (work.foldl (stepItem q) st).successful.length +
        (work.foldl (stepItem q) st).failed.length =
      st.successful.length + st.failed.length + work.length := by
  intro work
  induction work with
  | nil => intro st; simp
  | cons it rest ih =>
    intro st
    rw [List.foldl_cons, ih]
    cases hf : fetchWithFallback (q it.2.1) it.2.2 <;>
      simp [stepItem, hf] <;> omega

/-- The loop adds a column to `all_data` exactly when it appends to
`successful`, so the two accumulators are empty together. -/
theorem foldl_stepItem_nil_iff {V : Type} (q : String → String → Option (Series V)) :
    ∀ (work : List (String × String × String)) (st : RunState V),
      (st.allData = [] ↔ st.successful = []) →
      ((work.foldl (stepItem q) st).allData = [] ↔
        (work.foldl (stepItem q) st).successful = []) := by
  intro work
  induction work with
  | nil => intro st h; exact h
  | cons it rest ih =>
    intro st h
    rw [List.foldl_cons]
    refine ih _ ?_
    cases hf : fetchWithFallback (q it.2.1) it.2.2 with
    | none => simpa [stepItem, hf] using h
    | some df => simp [stepItem, hf, dictInsert_ne_nil]

/-- C9.  For a run that retrieved at least one series: the metadata sidecar
body runs inside `try/except pass`, so a failing metadata write is swallowed
— the run returns the same CSV path and summary as with a successful
metadata write — while a failing primary CSV write (`df.to_csv`) propagates
to the caller as a raised fault. -/
theorem C9_write_failure_handling {V E : Type}
    (work : List (String × String × String))
    (q : String → String → Option (Series V)) (er : E)
    (metaBody : Except E Unit) (path : String)
    (hdata : (work.foldl (stepItem q) initState).allData ≠ []) :
    (runRetrieval work q (Except.ok Unit.unit) (Except.error er) path =
      runRetrieval work q (Except.ok Unit.unit) (Except.ok Unit.unit) path) ∧
    (runRetrieval work q (Except.ok Unit.unit) (Except.error er) path =
      Except.ok ⟨some (path, (work.foldl (stepItem q) initState).allData),
        ⟨(work.foldl (stepItem q) initState).successful.length,
          (work.foldl (stepItem q) initState).failed.length,
          totalPoints (work.foldl (stepItem q) initState).allData⟩⟩) ∧
    (runRetrieval work q (Except.error er) metaBody path = Except.error er) := by
  have hwork : ¬ (work.isEmpty = true) := by
    cases hw : work with
    | nil => rw [hw] at hdata; exact absurd rfl hdata
    | cons a l => simp
  have hAD : ¬ (((work.foldl (stepItem q) initState).allData).isEmpty = true) := by
    simp only [List.isEmpty_eq_true]
    exact hdata
  have hmain : ∀ mb : Except E Unit,
      runRetrieval work q (Except.ok Unit.unit) mb path =
        Except.ok ⟨some (path, (work.foldl (stepItem q) initState).allData),
          ⟨(work.foldl (stepItem q) initState).successful.length,
            (work.foldl (stepItem q) initState).failed.length,
            totalPoints (work.foldl (stepItem q) initState).allData⟩⟩ := by
    intro mb
    simp only [runRetrieval]
    rw [if_neg hwork, if_neg hAD]
    rfl
  refine ⟨?_, hmain _, ?_⟩
  · rw [hmain, hmain]
  · simp only [runRetrieval]
    rw [if_neg hwork, if_neg hAD]
    rfl

/-- Witness for C9: one work item that succeeds; the failing metadata write
is swallowed and the failing CSV write propagates. -/
theorem C9_write_failure_handling_witness :
    (runRetrieval [("c", "u", "value_f")] (fun _ _ => some [((0 : Nat), (1 : Nat))])
      (Except.ok Unit.unit) (Except.error "disk full") "p" =
      runRetrieval [("c", "u", "value_f")] (fun _ _ => some [((0 : Nat), (1 : Nat))])
        (Except.ok Unit.unit) (Except.ok Unit.unit) "p") ∧
    (runRetrieval [("c", "u", "value_f")] (fun _ _ => some [((0 : Nat), (1 : Nat))])
      (Except.ok Unit.unit) (Except.error "disk full") "p" =
      Except.ok ⟨some ("p", (([("c", "u", "value_f")]).foldl
          (stepItem (fun _ _ => some [((0 : Nat), (1 : Nat))])) initState).allData),
        ⟨(([("c", "u", "value_f")]).foldl
            (stepItem (fun _ _ => some [((0 : Nat), (1 : Nat))])) initState).successful.length,
          (([("c", "u", "value_f")]).foldl
            (stepItem (fun _ _ => some [((0 : Nat), (1 : Nat))])) initState).failed.length,
          totalPoints (([("c", "u", "value_f")]).foldl
            (stepItem (fun _ _ => some [((0 : Nat), (1 : Nat))])) initState).allData⟩⟩) ∧
    (runRetrieval [("c", "u", "value_f")] (fun _ _ => some [((0 : Nat), (1 : Nat))])
      (Except.error "disk full") (Except.ok Unit.unit) "p" = Except.error "disk full") :=
  C9_write_failure_handling [("c", "u", "value_f")]
    (fun _ _ => some [((0 : Nat), (1 : Nat))]) "disk full"
    (Except.ok Unit.unit) "p" (by decide)

/-- C10.  Every work item is counted exactly once as successful or failed,
so the summary satisfies `successful + failed = number of work items`; and
`total_points` equals the number of distinct timestamps of the assembled
table when at least one item succeeded, and `0` otherwise. -/
theorem C10_summary_invariant {V E : Type} (work : List (String × String × String))
    (q : String → String → Option (Series V))
    (csvWrite metaBody : Except E Unit) (path : String) :
    ((work.foldl (stepItem q) initState).successful.length +
      (work.foldl (stepItem q) initState).failed.length = work.length) ∧
    (∀ out : RunOutcome V, runRetrieval work q csvWrite metaBody path = Except.ok out →
      (out.summary.successful + out.summary.failed = work.length ∧
       ((work.foldl (stepItem q) initState).successful ≠ [] →
         out.summary.totalPoints =
           totalPoints (work.foldl (stepItem q) initState).allData) ∧
       ((work.foldl (stepItem q) initState).successful = [] →
         out.summary.totalPoints = 0))) := by
  have hcount : (work.foldl (stepItem q) initState).successful.length +
      (work.foldl (stepItem q) initState).failed.length = work.length := by
    have h := foldl_stepItem_counts q work (initState (V := V))
    simpa [initState] using h
  refine ⟨hcount, ?_⟩
  intro out hout
  by_cases hw : work.isEmpty = true
  · have hwnil : work = [] := List.isEmpty_eq_true.mp hw
    subst hwnil
    have heq : (Except.ok ⟨none, ⟨0, 0, 0⟩⟩ : Except E (RunOutcome V)) =
        Except.ok out := hout
    injection heq with heq
    subst heq
    exact ⟨rfl, fun hne => absurd rfl hne, fun _ => rfl⟩
  · by_cases hA : ((work.foldl (stepItem q) initState).allData).isEmpty = true
    · have hsuccnil : (work.foldl (stepItem q) initState).successful = [] :=
        (foldl_stepItem_nil_iff q work initState (by simp [initState])).mp
          (List.isEmpty_eq_true.mp hA)
      simp only [runRetrieval] at hout
      rw [if_neg hw, if_pos hA] at hout
      injection hout with heq
      subst heq
      refine ⟨?_, fun hne => absurd hsuccnil hne, fun _ => rfl⟩
      have hzero : (work.foldl (stepItem q) initState).successful.length = 0 := by
        rw [hsuccnil]
        rfl
      simp only [Summary.successful, Summary.failed]
      omega
    · simp only [runRetrieval] at hout
      rw [if_neg hw, if_neg hA] at hout
      cases csvWrite with
      | error er =>
        have : (Except.error er : Except E (RunOutcome V)) = Except.ok out := hout
        simp at this
      | ok u =>
        have heq : (Except.ok
            ⟨some (path, (work.foldl (stepItem q) initState).allData),
              ⟨(work.foldl (stepItem q) initState).successful.length,
                (work.foldl (stepItem q) initState).failed.length,
                totalPoints (work.foldl (stepItem q) initState).allData⟩⟩ :
              Except E (RunOutcome V)) = Except.ok out := hout
        injection heq with heq
        subst heq
        refine ⟨hcount, fun _ => rfl, fun hnil => ?_⟩
        have hAnil : (work.foldl (stepItem q) initState).allData = [] :=
          (foldl_stepItem_nil_iff q work initState (by simp [initState])).mpr hnil
        exact absurd (List.isEmpty_eq_true.mpr hAnil) hA

/-- Witness for C10: two work items, one succeeding with two timestamps and
one failing on the primary field and all fallbacks. -/
theorem C10_summary_invariant_witness :
    runRetrieval [("a", "u", "value_f"), ("b", "w", "value_f")]
      (fun u _ => if u = "u" then some [((0 : Nat), (1 : Nat)), (5, 2)] else none)
      (Except.ok Unit.unit : Except Unit Unit) (Except.ok Unit.unit) "p" =
      Except.ok ⟨some ("p", [("a", [(0, 1), (5, 2)])]), ⟨1, 1, 2⟩⟩ ∧
    (1 : Nat) + 1 = 2 ∧
    (2 : Nat) = totalPoints [("a", [((0 : Nat), (1 : Nat)), (5, 2)])] := by
  have hrun : runRetrieval [("a", "u", "value_f"), ("b", "w", "value_f")]
      (fun u _ => if u = "u" then some [((0 : Nat), (1 : Nat)), (5, 2)] else none)
      (Except.ok Unit.unit : Except Unit Unit) (Except.ok Unit.unit) "p" =
      Except.ok ⟨some ("p", [("a", [(0, 1), (5, 2)])]), ⟨1, 1, 2⟩⟩ := by
    rfl
  have h := (C10_summary_invariant [("a", "u", "value_f"), ("b", "w", "value_f")]
    (fun u _ => if u = "u" then some [((0 : Nat), (1 : Nat)), (5, 2)] else none)
    (Except.ok Unit.unit : Except Unit Unit) (Except.ok Unit.unit) "p").2
    ⟨some ("p", [("a", [(0, 1), (5, 2)])]), ⟨1, 1, 2⟩⟩ hrun
  exact ⟨hrun, h.1, h.2.1 (by decide)⟩

/-- C5.  `_query` never raises to its caller: it is modeled as a total
function into `Option`, and every failure class the specification enumerates
— unreachable endpoint, non-success HTTP status, unparsable response body,
response without a matching series, and a response table that cannot be
parsed into the expected shape — resolves to the explicit no-data value
`none`. -/
theorem C5_query_never_raises {V : Type} (timeOf : V → Option Nat) :
    (queryHttp timeOf HttpResult.unreachable = none) ∧
    (∀ (status : Nat) (body : Option (List (ResultEntry V))), status ≠ 200 →
      queryHttp timeOf (HttpResult.response status body) = none) ∧
    (∀ status : Nat, queryHttp timeOf (HttpResult.response status none) = none) ∧
    (∀ status : Nat, queryHttp timeOf (HttpResult.response status (some [])) = none) ∧
    (∀ (status : Nat) (r0 : ResultEntry V) (rest : List (ResultEntry V)),
      r0.series = [] →
      queryHttp timeOf (HttpResult.response status (some (r0 :: rest))) = none) ∧
    (∀ (status : Nat) (r0 : ResultEntry V) (rest : List (ResultEntry V))
      (s0 : SeriesData V) (srest : List (SeriesData V)),
      r0.series = s0 :: srest → parseSeries timeOf s0 = none →
      queryHttp timeOf (HttpResult.response status (some (r0 :: rest))) = none) ∧
    (∀ sd : SeriesData V, sd.columns.findIdx? (fun c => c == "time") = none →
      parseSeries timeOf sd = none) := by
  refine ⟨rfl, ?_, ?_, ?_, ?_, ?_, ?_⟩
  · intro status body h
    simp only [queryHttp]
    rw [if_pos h]
  · intro status
    simp only [queryHttp]
    split
    · rfl
    · rfl
  · intro status
    simp only [queryHttp]
    split
    · rfl
    · rfl
  · intro status r0 rest h
    simp only [queryHttp]
    split
    · rfl
    · rw [h]
  · intro status r0 rest s0 srest h hparse
    simp only [queryHttp]
    split
    · rfl
    · rw [h]
      exact hparse
  · intro sd h
    rw [parseSeries]
    split
    · rw [h]
    · rfl

/-- Witness for C5 at concrete failing responses: a 500 status and an
unreachable endpoint both yield `none`. -/
theorem C5_query_never_raises_witness :
    queryHttp (V := Nat) (fun v => some v) (HttpResult.response 500 none) = none ∧
    queryHttp (V := Nat) (fun v => some v) HttpResult.unreachable = none :=
  ⟨(C5_query_never_raises (fun v => some v)).2.1 500 none (by decide),
    (C5_query_never_raises (fun v => some v)).1⟩

end UniversalRetrieval
